import Mathlib

/-!
Verification of the `inventory` tag-indexed transactional store.

The development shallowly embeds the Go sources:
* the key codec (`mkKey`, `parseKey`, `writeKey`);
* the storage engine (`storage`, `db`, `cacheView`, `transaction` with its
  `Get`/`Put`/`Tag`/`Iter`/`Invalidate`/`deleteKey` operations, `db.Update`
  commit, `db.GetOrFill`);
* the typed layer (`Collection`, `Infer`, `Derive`) as far as the claims need.

Go maps are modelled as association lists (for the transaction overlay, which
is enumerated) and as functions `String → Option _` (for the live snapshot,
which is only ever indexed).  Go's `nil`-map and slice panics are modelled by
`Option`-valued functions returning `none` for a panic.  The mapped values of
the transaction's deletion maps are never read by the source (only key
membership is used, the stored value is always Go `nil`), so deletions are
modelled as key lists.
-/

namespace Inventory

/-! ### Key codec (source: the file defining `mkKey` / `parseKey` / `writeKey`)

Strings are modelled as `List Char`.  `mkKey` writes
`kind ++ open-marker ++ key ++ separator ++ val ++ close-marker`, exactly as
`writeKey` does on a buffer (the `sync.Pool` buffer reuse is a pure
allocation concern with no observable effect on the produced string).
`parseKey` returns `none` to model a Go slice-bounds panic
(`key[a:b]` with `a > b`), and otherwise `some (kind, k, v, ok)` with the
fields that Go would have populated at the corresponding `return`. -/

def curlyStart : Char := '{'

def curlyEnd : Char := '}'

def colon : Char := ':'

def mkKey (kind key val : List Char) : List Char :=
  kind ++ curlyStart :: (key ++ colon :: (val ++ [curlyEnd]))

/-- First index of a character in a list, `none` if absent
(Go `strings.IndexByte`, with `none` for `-1`). -/
def idxOf? (c : Char) : List Char → Option Nat
  | [] => none
  | x :: xs => if x = c then some 0 else (idxOf? c xs).map (fun n => n + 1)

def parseKey (key : List Char) : Option (List Char × List Char × List Char × Bool) :=
  match idxOf? curlyStart key with
  | none => some ([], [], [], false)
  | some endOfKind =>
    let kind := key.take endOfKind
    match idxOf? colon key with
    | none => some (kind, [], [], false)
    | some endOfKey =>
      if endOfKey < endOfKind + 1 then none
      else
        let k := (key.drop (endOfKind + 1)).take (endOfKey - (endOfKind + 1))
        match idxOf? curlyEnd key with
        | none => some (kind, k, [], false)
        | some endOfKeyVal =>
          if endOfKeyVal < endOfKey + 1 then none
          else
            let v := (key.drop (endOfKey + 1)).take (endOfKeyVal - (endOfKey + 1))
            some (kind, k, v, true)

@[simp]
theorem idxOf?_nil (c : Char) : idxOf? c [] = none := rfl

@[simp]
theorem idxOf?_cons_self (c : Char) (r : List Char) : idxOf? c (c :: r) = some 0 := by
  simp [idxOf?]

theorem idxOf?_cons_of_ne {x c : Char} (h : x ≠ c) (r : List Char) :
    idxOf? c (x :: r) = (idxOf? c r).map (fun n => n + 1) := by
  simp [idxOf?, h]

theorem idxOf?_append_of_not_mem {c : Char} {l : List Char} (h : c ∉ l) (r : List Char) :
    idxOf? c (l ++ r) = (idxOf? c r).map (fun n => n + l.length) := by
  induction l with
  | nil => cases h' : idxOf? c r <;> simp [h']
  | cons x xs ih =>
    have hx : x ≠ c := fun hxc => h (hxc ▸ List.mem_cons_self x xs)
    have hxs : c ∉ xs := fun hm => h (List.mem_cons_of_mem x hm)
    rw [List.cons_append, idxOf?_cons_of_ne hx, ih hxs]
    cases idxOf? c r <;> simp <;> omega

/-! ### Storage engine (source: the file defining `storage` / `db` / `transaction`)

`storage` holds three Go maps.  The live snapshot is only ever indexed, so its
maps become functions `String → Option _`; a tag's key set
(`map[string]struct{}`) becomes a duplicate-free `List String`.  The
transaction overlay's addition maps are enumerated on commit, so they become
association lists; its deletion maps become key lists (their mapped values are
always Go `nil` and are never read). -/

abbrev SMap (α : Type) := List (String × α)

def smLookup {α : Type} : SMap α → String → Option α
  | [], _ => none
  | (k', v) :: rest, k => if k' = k then some v else smLookup rest k

def smErase {α : Type} (m : SMap α) (k : String) : SMap α :=
  m.filter (fun p => p.1 ≠ k)

def smInsert {α : Type} (m : SMap α) (k : String) (v : α) : SMap α :=
  smErase m k ++ [(k, v)]

def smModify {α : Type} (m : SMap α) (k : String) (f : α → α) : SMap α :=
  m.map (fun p => if p.1 = k then (k, f p.2) else p)

/-- Insertion into a Go set (`m[x] = struct… `): a no-op when already present. -/
def insertS (l : List String) (x : String) : List String :=
  if x ∈ l then l else l ++ [x]

/-- Deletion from a Go set (`delete(m, x)`). -/
def removeS (l : List String) (x : String) : List String :=
  l.filter (fun y => y ≠ x)

@[ext]
structure Storage (α : Type) where
  tagToKeys : String → Option (List String)
  keyToTags : String → Option (List String)
  items : String → Option α

def emptyStorage {α : Type} : Storage α :=
  { tagToKeys := fun _ => none, keyToTags := fun _ => none, items := fun _ => none }

/-- The transaction overlay: `additions` (association lists) layered with
`deletions` (key sets) over an origin snapshot.  The origin pointer of the Go
struct becomes an explicit `Storage` argument of each operation; the Go code
never mutates the origin through the overlay (every copy-on-first-touch path
allocates a fresh map before writing). -/
structure Trans (α : Type) where
  addItems : SMap α
  addKeyToTags : SMap (List String)
  addTagToKeys : SMap (List String)
  delItems : List String
  delKeyToTags : List String
  delTagToKeys : List String

/-- The cleared overlay a `db.Update` call starts from. -/
def emptyTrans {α : Type} : Trans α :=
  ⟨[], [], [], [], [], []⟩

/-- `transaction.Get`.  Mirrors the Go control flow, including the reuse of
the named result `ok`: a key that is present in the origin and marked deleted
falls through to the final bare `return` with `ok` still `true` from the
deletions-membership test, so it yields `(none, true)` — not `(none, false)`. -/
def transGet {α : Type} (o : Storage α) (t : Trans α) (key : String) : Option α × Bool :=
  match smLookup t.addItems key with
  | some v => (some v, true)
  | none =>
    match o.items key with
    | none => (none, false)
    | some originVal =>
      if key ∈ t.delItems then (none, true) else (some originVal, true)

/-- `transaction.Put`: writes only into the additions items map. -/
def transPut {α : Type} (t : Trans α) (key : String) (v : α) : Trans α :=
  { t with addItems := smInsert t.addItems key v }

/-- Body of `transaction.Tag`'s per-tag loop. -/
def tagStep {α : Type} (o : Storage α) (key : String) (t : Trans α) (tag : String) : Trans α :=
  let t1 :=
    if (smLookup t.addTagToKeys tag).isSome then t
    else { t with addTagToKeys := smInsert t.addTagToKeys tag ((o.tagToKeys tag).getD []) }
  let t2 := { t1 with addTagToKeys := smModify t1.addTagToKeys tag (fun ks => insertS ks key) }
  { t2 with addKeyToTags := smModify t2.addKeyToTags key (fun ts => insertS ts tag) }

/-- `transaction.Tag`: copy-on-first-touch of the origin's key→tags entry,
then per tag copy-on-first-touch of the origin's tag→keys entry and insertion
into both directions. -/
def transTag {α : Type} (o : Storage α) (t : Trans α) (key : String) (tags : List String) :
    Trans α :=
  let t0 :=
    if (smLookup t.addKeyToTags key).isSome then t
    else { t with addKeyToTags := smInsert t.addKeyToTags key ((o.keyToTags key).getD []) }
  tags.foldl (tagStep o key) t0

/-- Body of `transaction.deleteKey`'s per-tag loop. -/
def dkStep {α : Type} (key : String) (t : Trans α) (tag : String) : Trans α :=
  if tag ∈ t.delTagToKeys then t
  else
    { t with
      addTagToKeys := smModify t.addTagToKeys tag (fun ks => removeS ks key)
      delTagToKeys := insertS t.delTagToKeys tag }

/-- `transaction.deleteKey`: removes the key from the addition items, marks it
deleted, and marks every tag the key bears (additions entry first, else
origin) for whole-entry deletion from tag→keys.  Note that it never touches
`deletions.keyToTags`, so a deleted key's key→tags entry survives the commit. -/
def deleteKey {α : Type} (o : Storage α) (t : Trans α) (key : String) : Trans α :=
  let t1 := { t with addItems := smErase t.addItems key, delItems := insertS t.delItems key }
  let tags :=
    match smLookup t1.addKeyToTags key with
    | some ts => ts
    | none => (o.keyToTags key).getD []
  tags.foldl (dkStep key) t1

/-- Body of `transaction.Invalidate`'s per-deleted-key loop: delete the key and
record it in the `deleted` result, duplicates suppressed. -/
def invKeyStep {α : Type} (o : Storage α) (acc : Trans α × List String) (k : String) :
    Trans α × List String :=
  (deleteKey o acc.1 k, if k ∈ acc.2 then acc.2 else acc.2 ++ [k])

/-- Body of `transaction.Invalidate`'s per-tag loop. -/
def invTagStep {α : Type} (o : Storage α) (acc : Trans α × List String) (tag : String) :
    Trans α × List String :=
  if tag ∈ acc.1.delTagToKeys then acc
  else
    match (smLookup acc.1.addTagToKeys tag).orElse (fun _ => o.tagToKeys tag) with
    | none => acc
    | some keys =>
      let t :=
        { acc.1 with
          addTagToKeys := smErase acc.1.addTagToKeys tag
          delTagToKeys := insertS acc.1.delTagToKeys tag }
      let acc2 := keys.foldl (invKeyStep o) (t, acc.2)
      let t2 := deleteKey o acc2.1 tag
      (t2, if tag ∈ acc2.2 then acc2.2 else acc2.2 ++ [tag])

/-- `transaction.Invalidate`: resolves each tag's key set (a tag already
marked deleted is a no-op; additions take precedence over the origin), deletes
every key in it, then deletes the tag itself as a key. -/
def transInvalidate {α : Type} (o : Storage α) (t : Trans α) (tags : List String) :
    Trans α × List String :=
  tags.foldl (invTagStep o) (t, [])

/-- `transaction.Iter`.  The Go code declares `var keys map[…]struct…` (a nil
map) and immediately `maps.Copy`s the origin's key set — and, when present,
the additions' key set — into it; copying any non-empty set into a nil map
panics with "assignment to entry in nil map", modelled as `none`.  On every
non-panicking path the visit loop body is unreachable with a non-empty set
(and, when it does run, the reused `ok` flag makes every iteration `continue`),
so the visitor is never invoked; `some l` returns the visited keys, always
`[]`. -/
def transIter {α : Type} (o : Storage α) (t : Trans α) (tag : String) : Option (List String) :=
  if tag ∈ t.delTagToKeys then some []
  else if ((o.tagToKeys tag).getD []).isEmpty = false then none
  else
    match smLookup t.addTagToKeys tag with
    | some ks => if ks.isEmpty then some [] else none
    | none => some []

/-- The merge step of `db.Update`: deletions applied first, then additions,
per mapping.  For a key present both in additions and deletions the addition
wins (it is re-inserted after the delete). -/
def commit {α : Type} (s : Storage α) (t : Trans α) : Storage α where
  tagToKeys := fun k =>
    (smLookup t.addTagToKeys k).orElse
      (fun _ => if k ∈ t.delTagToKeys then none else s.tagToKeys k)
  keyToTags := fun k =>
    (smLookup t.addKeyToTags k).orElse
      (fun _ => if k ∈ t.delKeyToTags then none else s.keyToTags k)
  items := fun k =>
    (smLookup t.addItems k).orElse
      (fun _ => if k ∈ t.delItems then none else s.items k)

/-! ### The `db` level

`db.Update` serializes writers, opens a cleared overlay against the live
snapshot, runs the callback, and merges the overlay only when the callback
returns no error.  A callback is modelled by the list of writer operations it
performs plus whether it returns an error; reads (`Get`/`Iter`) performed by a
callback do not change the overlay and need not be recorded. -/

inductive Op (α : Type) where
  | put (key : String) (v : α)
  | tag (key : String) (tags : List String)
  | invalidate (tags : List String)

def applyOp {α : Type} (o : Storage α) (t : Trans α) : Op α → Trans α
  | Op.put k v => transPut t k v
  | Op.tag k ts => transTag o t k ts
  | Op.invalidate ts => (transInvalidate o t ts).1

def runOps {α : Type} (o : Storage α) (t : Trans α) (ops : List (Op α)) : Trans α :=
  ops.foldl (applyOp o) t

/-- `db.Update`: runs the callback's operations on a cleared overlay whose
origin is the live snapshot; on error the snapshot is left untouched and the
overlay is discarded, otherwise the overlay is merged. -/
def dbUpdate {α : Type} (s : Storage α) (ops : List (Op α)) (fails : Bool) : Storage α :=
  let t := runOps s emptyTrans ops
  if fails then s else commit s t

/-- `db.Get` (through `cacheView.Get`): a plain lookup on the live snapshot. -/
def dbGet {α : Type} (s : Storage α) (key : String) : Option α :=
  s.items key

/-- `db.Put`: a one-operation `Update`. -/
def dbPut {α : Type} (s : Storage α) (key : String) (v : α) : Storage α :=
  dbUpdate s [Op.put key v] false

/-- `db.Tag`: a one-operation `Update`. -/
def dbTag {α : Type} (s : Storage α) (key : String) (tags : List String) : Storage α :=
  dbUpdate s [Op.tag key tags] false

/-- `db.Invalidate`: a one-operation `Update`. -/
def dbInvalidate {α : Type} (s : Storage α) (tags : List String) : Storage α :=
  dbUpdate s [Op.invalidate tags] false

/-- `db.GetOrFill`: optimistic `Get`, then inside an `Update` a re-check, the
`fill` call, and `Put` + `Tag` of the result.  The Go `fill` returns
`(interface, error)`; it is modelled as `Except`, with the returned value on
the error path being Go `nil` (`none`).  Result: (value, error, new snapshot,
whether `fill` was invoked). -/
def dbGetOrFill {α : Type} (s : Storage α) (key : String) (fill : Except String α)
    (tags : List String) : Option α × Option String × Storage α × Bool :=
  match s.items key with
  | some v => (some v, none, s, false)
  | none =>
    let g := transGet s emptyTrans key
    if g.2 then (g.1, none, commit s emptyTrans, false)
    else
      match fill with
      | Except.error e => (none, some e, s, true)
      | Except.ok v =>
        let t := transTag s (transPut emptyTrans key v) key tags
        (some v, none, commit s t, true)

/-! ### Typed layer (source: the file defining `Collection` / `Infer` / `Derive`)

Composite keys at this level are plain strings built the way `mkKey` builds
them.  An index's value-extraction callback may push several values; it is
modelled as a function into `List String` (for the primary key, which the
code reads as a single value, a function into `String`).  The `Extractor`
callback is modelled by the list of items it pushes through its sink; a
collection configured without an `Extractor` carries `none` — calling a nil
Go function value panics.  Inference hooks are not modelled: no claim
depends on them beyond the fact, recorded in `infer`, that the derived
collection itself receives no `Extractor`. -/

def mkKeyS (kind attr v : String) : String :=
  kind ++ "\x7b" ++ attr ++ ":" ++ v ++ "\x7d"

structure Collection (α β : Type) where
  kind : String
  pk : Option (String × (β → String))
  keys : List (String × (β → List String))
  extract : Option (List β)
  embed : β → α

/-- `Infer`: the derived collection is `NewCollection(baseCol.db, mapBy)` with
no options — no primary key and, crucially, no `Extractor`. -/
def infer {α β γ : Type} (_base : Collection α β) (mapBy : String) (embed : γ → α) :
    Collection α γ :=
  { kind := mapBy, pk := none, keys := [], extract := none, embed := embed }

/-- `Collection.loadItem` + `tagItemWithIndexes` as the writer operations they
perform: put the item, tag it with the bare kind, tag it per secondary-index
value. -/
def loadItemOps {α β : Type} (c : Collection α β) (key : String) (it : β) : List (Op α) :=
  Op.put key (c.embed it) :: Op.tag key [c.kind] ::
    (c.keys.map (fun idx => (idx.2 it).map (fun v => Op.tag key [mkKeyS c.kind idx.1 v]))).flatten

/-- `Collection.Load` as the writer operations it performs, or `none` when the
nil `extract` function is called (a Go panic).  `indexer` returns early with
no work when no primary key is configured. -/
def Collection.load {α β : Type} (c : Collection α β) : Option (List (Op α)) :=
  match c.extract with
  | none => none
  | some items =>
    match c.pk with
    | none => some []
    | some (pkAttr, pkOf) =>
      some ((items.map (fun it => loadItemOps c (mkKeyS c.kind pkAttr (pkOf it)) it)).flatten)

/-- `Collection.Invalidate`: one `Update` performing `writer.Invalidate(kind)`
followed by `Load` with the same writer; `none` when `Load` panics. -/
def Collection.invalidateOps {α β : Type} (c : Collection α β) : Option (List (Op α)) :=
  c.load.map (fun ops => Op.invalidate [c.kind] :: ops)

/-- `Derive`: a configuration error when the collection has no primary key;
otherwise `GetOrFill` under the synthetic key
`mkKey(kind+"/"+name, pkAttr, pkValue-of-item)`, tagged with the base kind.
The Go type assertion on the stored value cannot fail in this monomorphic
model. -/
def deriveFn {α β : Type} (c : Collection α β) (name : String) (computeFn : β → Except String α)
    (s : Storage α) (item : β) : Option α × Option String × Storage α × Bool :=
  match c.pk with
  | none => (none, some "no primary key", s, false)
  | some (pkAttr, pkOf) =>
    dbGetOrFill s (mkKeyS (c.kind ++ "/" ++ name) pkAttr (pkOf item)) (computeFn item) [c.kind]

/-! ### Basic lemmas about the map and set helpers -/

@[simp]
theorem smLookup_nil {α : Type} (k : String) : smLookup ([] : SMap α) k = none := rfl

theorem smLookup_append {α : Type} (m1 m2 : SMap α) (k : String) :
    smLookup (m1 ++ m2) k = (smLookup m1 k).orElse (fun _ => smLookup m2 k) := by
  induction m1 with
  | nil => simp [smLookup]
  | cons p rest ih =>
    obtain ⟨k', v⟩ := p
    by_cases h : k' = k <;> simp [smLookup, h, ih]

theorem smErase_cons_eq {α : Type} {k'' k : String} (v : α) (rest : SMap α) (h : k'' = k) :
    smErase ((k'', v) :: rest) k = smErase rest k := by
  simp [smErase, List.filter_cons, h]

theorem smErase_cons_ne {α : Type} {k'' k : String} (v : α) (rest : SMap α) (h : k'' ≠ k) :
    smErase ((k'', v) :: rest) k = (k'', v) :: smErase rest k := by
  simp [smErase, List.filter_cons, h]

theorem smModify_cons_eq {α : Type} {k'' k : String} (v : α) (rest : SMap α) (f : α → α)
    (h : k'' = k) : smModify ((k'', v) :: rest) k f = (k, f v) :: smModify rest k f := by
  simp [smModify, h]

theorem smModify_cons_ne {α : Type} {k'' k : String} (v : α) (rest : SMap α) (f : α → α)
    (h : k'' ≠ k) : smModify ((k'', v) :: rest) k f = (k'', v) :: smModify rest k f := by
  simp [smModify, h]

@[simp]
theorem smLookup_smErase_self {α : Type} (m : SMap α) (k : String) :
    smLookup (smErase m k) k = none := by
  induction m with
  | nil => rfl
  | cons p rest ih =>
    obtain ⟨k', v⟩ := p
    by_cases h : k' = k
    · rw [smErase_cons_eq v rest h]
      exact ih
    · rw [smErase_cons_ne v rest h]
      simp [smLookup, h, ih]

theorem smLookup_smErase_ne {α : Type} (m : SMap α) {k k' : String} (h : k' ≠ k) :
    smLookup (smErase m k) k' = smLookup m k' := by
  induction m with
  | nil => rfl
  | cons p rest ih =>
    obtain ⟨k'', v⟩ := p
    by_cases h2 : k'' = k
    · rw [smErase_cons_eq v rest h2]
      have : k'' ≠ k' := by rw [h2]; exact Ne.symm h
      simp [smLookup, this, ih]
    · rw [smErase_cons_ne v rest h2]
      by_cases h3 : k'' = k' <;> simp [smLookup, h3, ih]

@[simp]
theorem smLookup_smInsert_self {α : Type} (m : SMap α) (k : String) (v : α) :
    smLookup (smInsert m k v) k = some v := by
  simp [smInsert, smLookup_append, smLookup]

theorem smLookup_smInsert_ne {α : Type} (m : SMap α) {k k' : String} (v : α) (h : k' ≠ k) :
    smLookup (smInsert m k v) k' = smLookup m k' := by
  simp [smInsert, smLookup_append, smLookup_smErase_ne m h, smLookup, Ne.symm h]

theorem smLookup_smModify_self {α : Type} (m : SMap α) (k : String) (f : α → α) :
    smLookup (smModify m k f) k = (smLookup m k).map f := by
  induction m with
  | nil => rfl
  | cons p rest ih =>
    obtain ⟨k', v⟩ := p
    by_cases h : k' = k
    · rw [smModify_cons_eq v rest f h]
      simp [smLookup, h]
    · rw [smModify_cons_ne v rest f h]
      simp [smLookup, h, ih]

theorem smLookup_smModify_ne {α : Type} (m : SMap α) {k k' : String} (f : α → α) (h : k' ≠ k) :
    smLookup (smModify m k f) k' = smLookup m k' := by
  induction m with
  | nil => rfl
  | cons p rest ih =>
    obtain ⟨k'', v⟩ := p
    by_cases h2 : k'' = k
    · rw [smModify_cons_eq v rest f h2]
      have hne : k ≠ k' := Ne.symm h
      simp [smLookup, hne, h2, ih]
    · rw [smModify_cons_ne v rest f h2]
      by_cases h3 : k'' = k' <;> simp [smLookup, h3, ih]

@[simp]
theorem smModify_nil {α : Type} (k : String) (f : α → α) : smModify ([] : SMap α) k f = [] := rfl

@[simp]
theorem smErase_nil {α : Type} (k : String) : smErase ([] : SMap α) k = [] := rfl

theorem mem_insertS {l : List String} {x a : String} : a ∈ insertS l x ↔ a ∈ l ∨ a = x := by
  by_cases h : x ∈ l
  · simp only [insertS, if_pos h]
    constructor
    · exact Or.inl
    · rintro (h2 | rfl) <;> [exact h2; exact h]
  · simp [insertS, if_neg h]

theorem mem_foldl_insertS {l : List String} {d : List String} {a : String} :
    a ∈ l.foldl insertS d ↔ a ∈ d ∨ a ∈ l := by
  induction l generalizing d with
  | nil => simp
  | cons x xs ih =>
    simp only [List.foldl_cons, ih, mem_insertS, List.mem_cons]
    tauto

theorem mem_foldl_nested_insertS {keys : List String} {f : String → List String}
    {d : List String} {a : String} :
    a ∈ keys.foldl (fun acc k => (f k).foldl insertS acc) d ↔
      a ∈ d ∨ ∃ k ∈ keys, a ∈ f k := by
  induction keys generalizing d with
  | nil => simp
  | cons x xs ih =>
    simp only [List.foldl_cons, ih, mem_foldl_insertS, List.mem_cons]
    constructor
    · rintro ((h | h) | ⟨k, hk, h⟩)
      · exact Or.inl h
      · exact Or.inr ⟨x, Or.inl rfl, h⟩
      · exact Or.inr ⟨k, Or.inr hk, h⟩
    · rintro (h | ⟨k, (rfl | hk), h⟩)
      · exact Or.inl (Or.inl h)
      · exact Or.inl (Or.inr h)
      · exact Or.inr ⟨k, hk, h⟩

theorem commit_items {α : Type} (s : Storage α) (t : Trans α) (k : String) :
    (commit s t).items k =
      (smLookup t.addItems k).orElse (fun _ => if k ∈ t.delItems then none else s.items k) := rfl

theorem commit_keyToTags {α : Type} (s : Storage α) (t : Trans α) (k : String) :
    (commit s t).keyToTags k =
      (smLookup t.addKeyToTags k).orElse
        (fun _ => if k ∈ t.delKeyToTags then none else s.keyToTags k) := rfl

theorem commit_tagToKeys {α : Type} (s : Storage α) (t : Trans α) (k : String) :
    (commit s t).tagToKeys k =
      (smLookup t.addTagToKeys k).orElse
        (fun _ => if k ∈ t.delTagToKeys then none else s.tagToKeys k) := rfl

theorem commit_emptyTrans {α : Type} (s : Storage α) : commit s emptyTrans = s := by
  ext k <;> simp [commit, emptyTrans]

/-! ### Characterizing a pure `Invalidate` transaction

A transaction that only invalidates never creates addition entries: every
overlay map write in `Invalidate`/`deleteKey` is an erase or a modification of
an entry that does not exist.  On such overlays `deleteKey` reduces to pure
accumulation into the deletion sets. -/

def noAdds {α : Type} (t : Trans α) : Prop :=
  t.addItems = [] ∧ t.addKeyToTags = [] ∧ t.addTagToKeys = []

theorem noAdds_emptyTrans {α : Type} : noAdds (emptyTrans (α := α)) :=
  ⟨rfl, rfl, rfl⟩

theorem dkStep_of_noAddTag {α : Type} (key tag : String) {t : Trans α}
    (h : t.addTagToKeys = []) :
    dkStep key t tag = { t with delTagToKeys := insertS t.delTagToKeys tag } := by
  obtain ⟨a1, a2, a3, d1, d2, d3⟩ := t
  simp only at h
  subst h
  unfold dkStep
  by_cases hm : tag ∈ d3
  · simp [hm, insertS]
  · simp [hm, insertS]

theorem foldl_dkStep_of_noAddTag {α : Type} (key : String) (tags : List String) {t : Trans α}
    (h : t.addTagToKeys = []) :
    tags.foldl (dkStep key) t = { t with delTagToKeys := tags.foldl insertS t.delTagToKeys } := by
  induction tags generalizing t with
  | nil => simp
  | cons x xs ih =>
    rw [List.foldl_cons, dkStep_of_noAddTag key x h]
    rw [ih (t := { t with delTagToKeys := insertS t.delTagToKeys x }) h]
    rfl

theorem deleteKey_of_noAdds {α : Type} (o : Storage α) {t : Trans α} (key : String)
    (h : noAdds t) :
    deleteKey o t key =
      { t with
        delItems := insertS t.delItems key
        delTagToKeys := ((o.keyToTags key).getD []).foldl insertS t.delTagToKeys } := by
  obtain ⟨h1, h2, h3⟩ := h
  obtain ⟨a1, a2, a3, d1, d2, d3⟩ := t
  simp only at h1 h2 h3
  subst h1; subst h2; subst h3
  unfold deleteKey
  rw [foldl_dkStep_of_noAddTag key _ (by simp [smErase])]
  simp [smLookup]

theorem noAdds_deleteKey {α : Type} (o : Storage α) {t : Trans α} (key : String)
    (h : noAdds t) : noAdds (deleteKey o t key) := by
  rw [deleteKey_of_noAdds o key h]
  exact h

theorem foldl_invKeyStep_of_noAdds {α : Type} (o : Storage α) (keys : List String)
    {t : Trans α} (d : List String) (h : noAdds t) :
    (keys.foldl (invKeyStep o) (t, d)).1 =
      { t with
        delItems := keys.foldl insertS t.delItems
        delTagToKeys :=
          keys.foldl (fun acc k => ((o.keyToTags k).getD []).foldl insertS acc)
            t.delTagToKeys } := by
  induction keys generalizing t d with
  | nil => simp
  | cons x xs ih =>
    rw [List.foldl_cons]
    show (xs.foldl (invKeyStep o) (deleteKey o t x, _)).1 = _
    rw [deleteKey_of_noAdds o x h] at *
    exact ih _ h

theorem noAdds_foldl_invKeyStep {α : Type} (o : Storage α) (keys : List String)
    {t : Trans α} (d : List String) (h : noAdds t) :
    noAdds (keys.foldl (invKeyStep o) (t, d)).1 := by
  rw [foldl_invKeyStep_of_noAdds o keys d h]
  exact h

/-- A single-tag `Invalidate` on a cleared overlay, tag absent from the origin:
nothing happens. -/
theorem invTrans_none {α : Type} {s : Storage α} {t2 : String} (h : s.tagToKeys t2 = none) :
    (transInvalidate s emptyTrans [t2]).1 = emptyTrans := by
  unfold transInvalidate invTagStep
  simp [emptyTrans, smLookup, Option.orElse, h]

/-- A single-tag `Invalidate` on a cleared overlay, tag present in the origin:
the additions stay empty, the tag's keys and the tag itself are marked deleted
in items, and the invalidated tag together with every tag borne (per the
origin's key→tags) by any deleted key is marked for whole-entry deletion from
tag→keys.  `deletions.keyToTags` is never written. -/
theorem invTrans_some {α : Type} {s : Storage α} {t2 : String} {keys : List String}
    (h : s.tagToKeys t2 = some keys) :
    (transInvalidate s emptyTrans [t2]).1 =
      { addItems := []
        addKeyToTags := []
        addTagToKeys := []
        delItems := insertS (keys.foldl insertS []) t2
        delKeyToTags := []
        delTagToKeys :=
          ((s.keyToTags t2).getD []).foldl insertS
            (keys.foldl (fun acc k => ((s.keyToTags k).getD []).foldl insertS acc) [t2]) } := by
  unfold transInvalidate
  rw [List.foldl_cons, List.foldl_nil]
  unfold invTagStep
  rw [if_neg (by simp [emptyTrans])]
  simp only [emptyTrans, smLookup_nil, Option.orElse, h]
  have hbase : noAdds (α := α)
      { addItems := [], addKeyToTags := [], addTagToKeys := smErase [] t2,
        delItems := [], delKeyToTags := [], delTagToKeys := insertS [] t2 } :=
    ⟨rfl, rfl, by simp [smErase]⟩
  rw [foldl_invKeyStep_of_noAdds _ _ _ hbase]
  rw [deleteKey_of_noAdds _ _ (by exact hbase)]
  simp [smErase, insertS]

/-- `db.Invalidate(t2)` (or `writer.Invalidate(t2)` inside a successful
`Update` that performs nothing else) deletes the item of every key in the
tag's key set. -/
theorem dbInvalidate_items_of_mem {α : Type} {s : Storage α} {t2 k : String}
    (h : k ∈ (s.tagToKeys t2).getD []) :
    (dbUpdate s [Op.invalidate [t2]] false).items k = none := by
  have hrun : dbUpdate s [Op.invalidate [t2]] false =
      commit s (transInvalidate s emptyTrans [t2]).1 := rfl
  cases hcase : s.tagToKeys t2 with
  | none => rw [hcase] at h; simp at h
  | some keys =>
    rw [hcase] at h
    simp only [Option.getD_some] at h
    have hmem : k ∈ insertS (keys.foldl insertS []) t2 := by
      rw [mem_insertS, mem_foldl_insertS]
      exact Or.inl (Or.inr h)
    rw [hrun, invTrans_some hcase, commit_items]
    simp [hmem]

/-- Keys outside the invalidated tag's key set (and distinct from the tag
itself, which is also deleted as a key) keep their items. -/
theorem dbInvalidate_items_of_not_mem {α : Type} {s : Storage α} {t2 k : String}
    (h1 : k ∉ (s.tagToKeys t2).getD []) (h2 : k ≠ t2) :
    (dbUpdate s [Op.invalidate [t2]] false).items k = s.items k := by
  have hrun : dbUpdate s [Op.invalidate [t2]] false =
      commit s (transInvalidate s emptyTrans [t2]).1 := rfl
  cases hcase : s.tagToKeys t2 with
  | none =>
    rw [hrun, invTrans_none hcase, commit_emptyTrans]
  | some keys =>
    rw [hcase] at h1
    simp only [Option.getD_some] at h1
    have hnot : k ∉ insertS (keys.foldl insertS []) t2 := by
      rw [mem_insertS, mem_foldl_insertS]
      rintro ((h | h) | h)
      · simp at h
      · exact h1 h
      · exact h2 h
    rw [hrun, invTrans_some hcase, commit_items]
    simp [hnot]

/-- After `Invalidate(t2)` the tag `t2` has no tag→keys entry: either it had
none before, or the whole entry is deleted on merge. -/
theorem dbInvalidate_tagToKeys_self {α : Type} (s : Storage α) (t2 : String) :
    (dbUpdate s [Op.invalidate [t2]] false).tagToKeys t2 = none := by
  have hrun : dbUpdate s [Op.invalidate [t2]] false =
      commit s (transInvalidate s emptyTrans [t2]).1 := rfl
  cases hcase : s.tagToKeys t2 with
  | none =>
    rw [hrun, invTrans_none hcase, commit_emptyTrans]
    exact hcase
  | some keys =>
    have hmem : t2 ∈ ((s.keyToTags t2).getD []).foldl insertS
        (keys.foldl (fun acc k => ((s.keyToTags k).getD []).foldl insertS acc) [t2]) := by
      rw [mem_foldl_insertS, mem_foldl_nested_insertS]
      exact Or.inl (Or.inl (by simp))
    rw [hrun, invTrans_some hcase, commit_tagToKeys]
    simp [hmem]

/-- A tag `t1` distinct from the invalidated tag `t2`, not borne (per the
origin's key→tags) by any key in `t2`'s key set nor by `t2`-as-a-key, keeps
its tag→keys entry across `Invalidate(t2)`. -/
theorem dbInvalidate_tagToKeys_of_disjoint {α : Type} {s : Storage α} {t1 t2 : String}
    (h1 : t1 ≠ t2)
    (h2 : ∀ k ∈ (s.tagToKeys t2).getD [], t1 ∉ (s.keyToTags k).getD [])
    (h3 : t1 ∉ (s.keyToTags t2).getD []) :
    (dbUpdate s [Op.invalidate [t2]] false).tagToKeys t1 = s.tagToKeys t1 := by
  have hrun : dbUpdate s [Op.invalidate [t2]] false =
      commit s (transInvalidate s emptyTrans [t2]).1 := rfl
  cases hcase : s.tagToKeys t2 with
  | none =>
    rw [hrun, invTrans_none hcase, commit_emptyTrans]
  | some keys =>
    rw [hcase] at h2
    simp only [Option.getD_some] at h2
    have hnot : t1 ∉ ((s.keyToTags t2).getD []).foldl insertS
        (keys.foldl (fun acc k => ((s.keyToTags k).getD []).foldl insertS acc) [t2]) := by
      rw [mem_foldl_insertS, mem_foldl_nested_insertS]
      rintro ((h | h) | h)
      · simp at h
        exact h1 h
      · obtain ⟨k, hk, hmem⟩ := h
        exact h2 k hk hmem
      · exact h3 h
    rw [hrun, invTrans_some hcase, commit_tagToKeys]
    simp [hnot]

/-- Key→tags entries are never deleted by an `Invalidate`-only update
(`deleteKey` never writes `deletions.keyToTags`), and with no `Tag` in the
transaction they are never overwritten either: stale entries survive. -/
theorem dbInvalidate_keyToTags {α : Type} (s : Storage α) (t2 k : String) :
    (dbUpdate s [Op.invalidate [t2]] false).keyToTags k = s.keyToTags k := by
  have hrun : dbUpdate s [Op.invalidate [t2]] false =
      commit s (transInvalidate s emptyTrans [t2]).1 := rfl
  cases hcase : s.tagToKeys t2 with
  | none =>
    rw [hrun, invTrans_none hcase, commit_emptyTrans]
  | some keys =>
    rw [hrun, invTrans_some hcase, commit_keyToTags]
    simp

/-! ### Lemmas about `Tag` and `GetOrFill` -/

theorem tagStep_addItems {α : Type} (o : Storage α) (key : String) (t : Trans α)
    (tag : String) : (tagStep o key t tag).addItems = t.addItems := by
  unfold tagStep
  by_cases h : (smLookup t.addTagToKeys tag).isSome <;> simp [h]

theorem transTag_addItems {α : Type} (o : Storage α) (t : Trans α) (key : String)
    (tags : List String) : (transTag o t key tags).addItems = t.addItems := by
  unfold transTag
  have main : ∀ (l : List String) (t' : Trans α),
      (l.foldl (tagStep o key) t').addItems = t'.addItems := by
    intro l
    induction l with
    | nil => intro t'; rfl
    | cons x xs ih =>
      intro t'
      rw [List.foldl_cons, ih, tagStep_addItems]
  by_cases h : (smLookup t.addKeyToTags key).isSome <;> simp [h, main]

/-- After `tagStep` at `tag`, the additions tag→keys entry for `tag` exists
and contains `key`. -/
theorem tagStep_mem_self {α : Type} (o : Storage α) (key : String) (t : Trans α)
    (tag : String) :
    ∃ ks, smLookup (tagStep o key t tag).addTagToKeys tag = some ks ∧ key ∈ ks := by
  unfold tagStep
  by_cases h : (smLookup t.addTagToKeys tag).isSome
  · obtain ⟨ks, hks⟩ := Option.isSome_iff_exists.mp h
    refine ⟨insertS ks key, ?_, ?_⟩
    · simp [h, smLookup_smModify_self, hks]
    · rw [mem_insertS]; exact Or.inr rfl
  · refine ⟨insertS ((o.tagToKeys tag).getD []) key, ?_, ?_⟩
    · simp [h, smLookup_smModify_self, smLookup_smInsert_self]
    · rw [mem_insertS]; exact Or.inr rfl

/-- `tagStep` at any tag preserves "the entry for `tag` exists and contains
`key`". -/
theorem tagStep_mem_mono {α : Type} (o : Storage α) (key : String) (t : Trans α)
    {tag : String} (tag' : String)
    (h : ∃ ks, smLookup t.addTagToKeys tag = some ks ∧ key ∈ ks) :
    ∃ ks, smLookup (tagStep o key t tag').addTagToKeys tag = some ks ∧ key ∈ ks := by
  by_cases heq : tag = tag'
  · subst heq
    exact tagStep_mem_self o key t tag
  · obtain ⟨ks, hks, hmem⟩ := h
    unfold tagStep
    by_cases h2 : (smLookup t.addTagToKeys tag').isSome
    · refine ⟨ks, ?_, hmem⟩
      simp only [h2, if_pos]
      rw [smLookup_smModify_ne _ _ heq]
      exact hks
    · refine ⟨ks, ?_, hmem⟩
      simp only [h2, if_neg, Bool.false_eq_true, ite_false]
      rw [smLookup_smModify_ne _ _ heq, smLookup_smInsert_ne _ _ heq]
      exact hks

theorem foldl_tagStep_mem {α : Type} (o : Storage α) (key : String) {tag : String}
    (tags : List String) (t : Trans α) (h : tag ∈ tags) :
    ∃ ks, smLookup ((tags.foldl (tagStep o key) t)).addTagToKeys tag = some ks ∧ key ∈ ks := by
  induction tags generalizing t with
  | nil => simp at h
  | cons x xs ih =>
    rw [List.mem_cons] at h
    rw [List.foldl_cons]
    by_cases hxs : tag ∈ xs
    · exact ih _ hxs
    · have hx : tag = x := by tauto
      subst hx
      have base := tagStep_mem_self o key t tag
      have mono : ∀ (l : List String) (t' : Trans α),
          (∃ ks, smLookup t'.addTagToKeys tag = some ks ∧ key ∈ ks) →
          ∃ ks, smLookup ((l.foldl (tagStep o key) t')).addTagToKeys tag = some ks ∧
            key ∈ ks := by
        intro l
        induction l with
        | nil => intro t' ht'; exact ht'
        | cons y ys ihy =>
          intro t' ht'
          rw [List.foldl_cons]
          exact ihy _ (tagStep_mem_mono o key t' y ht')
      exact mono xs _ base

/-- After `transaction.Tag key tags`, for every `tag ∈ tags` the overlay's
tag→keys entry for `tag` contains `key`. -/
theorem transTag_mem {α : Type} (o : Storage α) (t : Trans α) (key : String)
    {tags : List String} {tag : String} (h : tag ∈ tags) :
    ∃ ks, smLookup (transTag o t key tags).addTagToKeys tag = some ks ∧ key ∈ ks := by
  unfold transTag
  by_cases h0 : (smLookup t.addKeyToTags key).isSome <;>
    simp only [h0, if_pos, if_neg, Bool.false_eq_true, ite_false, ite_true] <;>
    exact foldl_tagStep_mem o key tags _ h

/-- The overlay `Get` re-check inside `GetOrFill` misses on a cleared overlay
whenever the optimistic `Get` missed. -/
theorem transGet_emptyTrans {α : Type} (s : Storage α) (key : String)
    (h : s.items key = none) : transGet s emptyTrans key = (none, false) := by
  simp [transGet, emptyTrans, smLookup, h]

/-- `GetOrFill` on a present key: the stored value is returned, `fill` is not
invoked, the snapshot is unchanged. -/
theorem dbGetOrFill_hit {α : Type} {s : Storage α} {key : String} {v : α}
    (fill : Except String α) (tags : List String) (h : s.items key = some v) :
    dbGetOrFill s key fill tags = (some v, none, s, false) := by
  simp [dbGetOrFill, h]

/-- `GetOrFill` on an absent key with a failing `fill`: the error is surfaced,
nothing is stored (the snapshot is returned unchanged), `fill` was invoked. -/
theorem dbGetOrFill_miss_error {α : Type} {s : Storage α} {key : String} (e : String)
    (tags : List String) (h : s.items key = none) :
    dbGetOrFill s key (Except.error e) tags = (none, some e, s, true) := by
  rw [dbGetOrFill, h]
  simp only [transGet_emptyTrans s key h]
  rfl

/-- `GetOrFill` on an absent key with a successful `fill`: the value is
returned and committed under the key, tagged with `tags`. -/
theorem dbGetOrFill_miss_ok {α : Type} {s : Storage α} {key : String} (v : α)
    (tags : List String) (h : s.items key = none) :
    dbGetOrFill s key (Except.ok v) tags =
      (some v, none, commit s (transTag s (transPut emptyTrans key v) key tags), true) := by
  rw [dbGetOrFill, h]
  simp only [transGet_emptyTrans s key h]
  rfl

/-- The snapshot committed by a successful fill stores the filled value. -/
theorem dbGetOrFill_stores {α : Type} (s : Storage α) (key : String) (v : α)
    (tags : List String) :
    (commit s (transTag s (transPut emptyTrans key v) key tags)).items key = some v := by
  rw [commit_items, transTag_addItems]
  show (smLookup (smInsert [] key v) key).orElse _ = some v
  rw [smLookup_smInsert_self]
  rfl

/-- The snapshot committed by a successful fill lists `key` under every tag in
`tags`. -/
theorem dbGetOrFill_tags {α : Type} (s : Storage α) (key : String) (v : α)
    {tags : List String} {tag : String} (h : tag ∈ tags) :
    key ∈ (((commit s (transTag s (transPut emptyTrans key v) key tags)).tagToKeys tag).getD
      []) := by
  obtain ⟨ks, hks, hmem⟩ := transTag_mem s (transPut emptyTrans key v) key h
  rw [commit_tagToKeys, hks]
  simpa using hmem

/-- On an absent key, `GetOrFill` always invokes `fill`. -/
theorem dbGetOrFill_filled {α : Type} {s : Storage α} {key : String}
    (fill : Except String α) (tags : List String) (h : s.items key = none) :
    (dbGetOrFill s key fill tags).2.2.2 = true := by
  cases fill with
  | error e => rw [dbGetOrFill_miss_error e tags h]
  | ok v => rw [dbGetOrFill_miss_ok v tags h]

/-! ### Concrete scenario snapshots used by counterexamples and witnesses -/

/-- Two keys: `k1` tagged only `t1`; `k2` tagged `t1` and `t2`. -/
def exC2 : Storage String :=
  dbUpdate emptyStorage
    [Op.put "k1" "a", Op.tag "k1" ["t1"], Op.put "k2" "b", Op.tag "k2" ["t1", "t2"]] false

/-- Two keys with disjoint tags: `k1` tagged only `t1`; `k2` tagged only `t2`. -/
def exC2disj : Storage String :=
  dbUpdate emptyStorage
    [Op.put "k1" "a", Op.tag "k1" ["t1"], Op.put "k2" "b", Op.tag "k2" ["t2"]] false

/-- One key `k` tagged with exactly `t1` and `t2`. -/
def exPair : Storage String :=
  dbUpdate emptyStorage [Op.put "k" "v", Op.tag "k" ["t1", "t2"]] false

/-! ### Claim theorems -/

/-- C1: `Update` is atomic.  When the callback returns an error, the live
snapshot (items, key→tags, tag→keys — the whole `Storage`) is exactly the
pre-call snapshot, whatever `Put`/`Tag`/`Invalidate` operations the callback
performed on the overlay; when the callback returns no error the overlay is
merged, and in particular a `Put` performed inside the callback is visible
afterwards. -/
theorem claim1_update_atomicity {α : Type} (s : Storage α) (ops : List (Op α)) (k : String)
    (v : α) :
    dbUpdate s ops true = s ∧
    dbUpdate s ops false = commit s (runOps s emptyTrans ops) ∧
    (dbUpdate s (ops ++ [Op.put k v]) false).items k = some v := by
  refine ⟨rfl, rfl, ?_⟩
  show (commit s (runOps s emptyTrans (ops ++ [Op.put k v]))).items k = some v
  have hsplit : runOps s emptyTrans (ops ++ [Op.put k v]) =
      transPut (runOps s emptyTrans ops) k v := by
    unfold runOps
    rw [List.foldl_append]
    rfl
  rw [hsplit, commit_items]
  show (smLookup (smInsert _ k v) k).orElse _ = some v
  rw [smLookup_smInsert_self]
  rfl

/-- C2, counterexample.  The bidirectional-consistency invariant is *not*
preserved by a completed `Invalidate`: starting from `k1` tagged only `t1` and
`k2` tagged `t1` and `t2`, invalidating `t2` leaves `k1` alive (items) and
leaves both `k1`'s and the deleted `k2`'s key→tags entries listing `t1` — yet
the whole `t1` tag→keys entry is gone, so no key→tags tag maps back and the
surviving `k1` is *not* reachable via tag→keys of `t1`, contradicting the
claim's "in particular" sentence at this concrete input. -/
theorem claim2_invariant_counterexample :
    (dbUpdate exC2 [Op.invalidate ["t2"]] false).items "k1" = some "a" ∧
    (dbUpdate exC2 [Op.invalidate ["t2"]] false).keyToTags "k1" = some ["t1"] ∧
    (dbUpdate exC2 [Op.invalidate ["t2"]] false).items "k2" = none ∧
    (dbUpdate exC2 [Op.invalidate ["t2"]] false).keyToTags "k2" = some ["t1", "t2"] ∧
    (dbUpdate exC2 [Op.invalidate ["t2"]] false).tagToKeys "t1" = none := by
  refine ⟨?_, ?_, ?_, ?_, ?_⟩ <;> decide

/-- C2, amended.  `Invalidate` deletes the whole tag→keys entry of *every* tag
borne by a deleted key and leaves deleted keys' key→tags entries in place; a
bare `Put` creates an item with no key→tags entry.  What survives of the
claim: after `Invalidate(t2)`, a key `k1` that is not in `t2`'s key set (and
is not the tag-key `t2` itself) keeps its item, and it stays reachable via
tag→keys of `t1` provided `t1 ≠ t2` and `t1` is not borne — per the origin's
key→tags — by any key of `t2`'s key set nor by `t2`-as-a-key; key→tags
entries are never removed by the invalidation. -/
theorem claim2_invariant_amended {α : Type} (s : Storage α) (t1 t2 k1 : String)
    (hne : t1 ≠ t2) (hk1 : k1 ∈ (s.tagToKeys t1).getD [])
    (hk1not : k1 ∉ (s.tagToKeys t2).getD []) (hk1t2 : k1 ≠ t2)
    (hdisj : ∀ k ∈ (s.tagToKeys t2).getD [], t1 ∉ (s.keyToTags k).getD [])
    (ht2key : t1 ∉ (s.keyToTags t2).getD []) :
    (dbUpdate s [Op.invalidate [t2]] false).items k1 = s.items k1 ∧
    (dbUpdate s [Op.invalidate [t2]] false).tagToKeys t1 = s.tagToKeys t1 ∧
    k1 ∈ ((dbUpdate s [Op.invalidate [t2]] false).tagToKeys t1).getD [] ∧
    (dbUpdate s [Op.invalidate [t2]] false).keyToTags k1 = s.keyToTags k1 := by
  have h1 := dbInvalidate_items_of_not_mem hk1not hk1t2
  have h2 := dbInvalidate_tagToKeys_of_disjoint hne hdisj ht2key
  refine ⟨h1, h2, ?_, dbInvalidate_keyToTags s t2 k1⟩
  rw [h2]
  exact hk1

theorem claim2_invariant_amended_witness :
    ("t1" : String) ≠ "t2" ∧
    "k1" ∈ (exC2disj.tagToKeys "t1").getD [] ∧
    "k1" ∉ (exC2disj.tagToKeys "t2").getD [] ∧
    (∀ k ∈ (exC2disj.tagToKeys "t2").getD [], "t1" ∉ (exC2disj.keyToTags k).getD []) ∧
    ((dbUpdate exC2disj [Op.invalidate ["t2"]] false).items "k1" = exC2disj.items "k1" ∧
      (dbUpdate exC2disj [Op.invalidate ["t2"]] false).tagToKeys "t1" =
        exC2disj.tagToKeys "t1" ∧
      "k1" ∈ ((dbUpdate exC2disj [Op.invalidate ["t2"]] false).tagToKeys "t1").getD [] ∧
      (dbUpdate exC2disj [Op.invalidate ["t2"]] false).keyToTags "k1" =
        exC2disj.keyToTags "k1") :=
  ⟨by decide, by decide, by decide, by decide,
    claim2_invariant_amended exC2disj "t1" "t2" "k1" (by decide) (by decide) (by decide)
      (by decide) (by decide) (by decide)⟩

/-- C3: `GetOrFill` stores at most one successful fill result per key per
invalidation epoch.  On an absent key a failing fill surfaces its error and
leaves the snapshot unchanged (so a later call re-attempts); a successful
fill stores its value; any later `GetOrFill` with any fill function returns
the stored value without invoking the fill and without changing the
snapshot — and generally, while a key holds a value, `GetOrFill` returns that
value with no fill invocation and no write. -/
theorem claim3_get_or_fill_once {α : Type} (s : Storage α) (key e : String) (v : α)
    (g g2 : Except String α) (tags tags2 tags3 : List String)
    (h : s.items key = none) :
    dbGetOrFill s key (Except.error e) tags = (none, some e, s, true) ∧
    (dbGetOrFill s key (Except.ok v) tags).1 = some v ∧
    (dbGetOrFill s key (Except.ok v) tags).2.2.2 = true ∧
    ((dbGetOrFill s key (Except.ok v) tags).2.2.1).items key = some v ∧
    dbGetOrFill ((dbGetOrFill s key (Except.ok v) tags).2.2.1) key g tags2 =
      (some v, none, (dbGetOrFill s key (Except.ok v) tags).2.2.1, false) ∧
    (∀ (s2 : Storage α) (w : α), s2.items key = some w →
      dbGetOrFill s2 key g2 tags3 = (some w, none, s2, false)) := by
  have hstore : ((dbGetOrFill s key (Except.ok v) tags).2.2.1).items key = some v := by
    rw [dbGetOrFill_miss_ok v tags h]
    exact dbGetOrFill_stores s key v tags
  refine ⟨dbGetOrFill_miss_error e tags h, ?_, ?_, hstore,
    dbGetOrFill_hit g tags2 hstore, fun s2 w hw => dbGetOrFill_hit g2 tags3 hw⟩
  · rw [dbGetOrFill_miss_ok v tags h]
  · rw [dbGetOrFill_miss_ok v tags h]

theorem claim3_get_or_fill_once_witness :
    (emptyStorage : Storage String).items "k" = none ∧
    (dbGetOrFill (emptyStorage : Storage String) "k" (Except.error "boom") ["t"] =
      (none, some "boom", emptyStorage, true) ∧
    ((dbGetOrFill (emptyStorage : Storage String) "k" (Except.ok "v") ["t"]).2.2.1).items "k" =
      some "v" ∧
    dbGetOrFill ((dbGetOrFill (emptyStorage : Storage String) "k"
        (Except.ok "v") ["t"]).2.2.1) "k" (Except.ok "w") [] =
      (some "v", none,
        (dbGetOrFill (emptyStorage : Storage String) "k" (Except.ok "v") ["t"]).2.2.1,
        false)) :=
  ⟨rfl,
    (claim3_get_or_fill_once emptyStorage "k" "boom" "v" (Except.ok "w") (Except.ok "w")
      ["t"] [] [] rfl).1,
    (claim3_get_or_fill_once emptyStorage "k" "boom" "v" (Except.ok "w") (Except.ok "w")
      ["t"] [] [] rfl).2.2.2.1,
    (claim3_get_or_fill_once emptyStorage "k" "boom" "v" (Except.ok "w") (Except.ok "w")
      ["t"] [] [] rfl).2.2.2.2.1⟩

/-- C4: code bug in the transaction overlay's `Iter`.  At the concrete overlay
state "origin holds key `k` under tag `t1`, cleared overlay" the claim demands
that `visit` run exactly once (for `k`) and that `Iter` never panic; the code
instead `maps.Copy`s the non-empty origin key set into a nil map and panics
(`none` in this embedding).  On every non-panicking path it visits nothing. -/
theorem claim4_overlay_iter_code_bug :
    exPair.tagToKeys "t1" = some ["k"] ∧
    transIter exPair (emptyTrans : Trans String) "t1" = none := by
  refine ⟨?_, ?_⟩ <;> decide

/-- C5, counterexample.  The claimed precedence "deletions first: present in
deletions ⇒ ok = false" fails on the code: for a key present in the origin
and marked deleted in the overlay (here: right after `Invalidate("t2")`
deleted `k` inside the same transaction), `transaction.Get` returns
`(nil, true)`, not `ok = false`. -/
theorem claim5_get_precedence_counterexample :
    "k" ∈ (runOps exPair emptyTrans [Op.invalidate ["t2"]]).delItems ∧
    transGet exPair (runOps exPair emptyTrans [Op.invalidate ["t2"]]) "k" = (none, true) := by
  refine ⟨?_, ?_⟩ <;> decide

/-- C5, amended.  The precedence actually implemented by `transaction.Get`:
additions win outright (even over a deletion of the same key); a key absent
from both additions and origin is absent (`ok = false`); an origin key not
marked deleted returns the origin value; an origin key marked deleted returns
`val = nil` with `ok = true` — the deletion hides the value, but the reused
`ok` flag still reports `true`. -/
theorem claim5_get_precedence_amended {α : Type} (o : Storage α) (t : Trans α) (k : String) :
    (∀ v, smLookup t.addItems k = some v → transGet o t k = (some v, true)) ∧
    (smLookup t.addItems k = none → o.items k = none → transGet o t k = (none, false)) ∧
    (∀ v, smLookup t.addItems k = none → o.items k = some v → k ∉ t.delItems →
      transGet o t k = (some v, true)) ∧
    (smLookup t.addItems k = none → (o.items k).isSome = true → k ∈ t.delItems →
      transGet o t k = (none, true)) := by
  refine ⟨?_, ?_, ?_, ?_⟩
  · intro v hv
    simp [transGet, hv]
  · intro h1 h2
    simp [transGet, h1, h2]
  · intro v h1 h2 h3
    simp [transGet, h1, h2, h3]
  · intro h1 h2 h3
    obtain ⟨v, hv⟩ := Option.isSome_iff_exists.mp h2
    simp [transGet, h1, hv, h3]

theorem claim5_get_precedence_amended_witness :
    smLookup (runOps exPair emptyTrans [Op.invalidate ["t2"]]).addItems "k" = none ∧
    (exPair.items "k").isSome = true ∧
    "k" ∈ (runOps exPair emptyTrans [Op.invalidate ["t2"]]).delItems ∧
    transGet exPair (runOps exPair emptyTrans [Op.invalidate ["t2"]]) "k" = (none, true) :=
  ⟨by decide, by decide, by decide,
    (claim5_get_precedence_amended exPair
        (runOps exPair emptyTrans [Op.invalidate ["t2"]]) "k").2.2.2
      (by decide) (by decide) (by decide)⟩

/-- C6, counterexample.  For `k` tagged with exactly `t1` and `t2`,
`Invalidate(t2)` does *not* leave `k` retrievable: `k` is in `t2`'s key set,
so it is deleted (`Get` reports not-found), and `t1`'s whole tag→keys entry is
removed as well, so `k` is not enumerable under `t1` either. -/
theorem claim6_cross_tag_counterexample :
    (dbUpdate exPair [Op.invalidate ["t2"]] false).items "k" = none ∧
    (dbUpdate exPair [Op.invalidate ["t2"]] false).tagToKeys "t1" = none := by
  refine ⟨?_, ?_⟩ <;> decide

/-- C6, amended.  Invalidation cascades through tags: `Invalidate(t2)` deletes
*every* key in `t2`'s key set — in particular a key tagged with both `t1` and
`t2` — and removes `t2`'s own tag→keys entry.  Cross-tag independence holds
only for keys that do not bear the invalidated tag (see the C2 theorem). -/
theorem claim6_cross_tag_amended {α : Type} (s : Storage α) (t2 k : String)
    (h : k ∈ (s.tagToKeys t2).getD []) :
    (dbUpdate s [Op.invalidate [t2]] false).items k = none ∧
    (dbUpdate s [Op.invalidate [t2]] false).tagToKeys t2 = none :=
  ⟨dbInvalidate_items_of_mem h, dbInvalidate_tagToKeys_self s t2⟩

theorem claim6_cross_tag_amended_witness :
    "k" ∈ (exPair.tagToKeys "t2").getD [] ∧
    ((dbUpdate exPair [Op.invalidate ["t2"]] false).items "k" = none ∧
      (dbUpdate exPair [Op.invalidate ["t2"]] false).tagToKeys "t2" = none) :=
  ⟨by decide, claim6_cross_tag_amended exPair "t2" "k" (by decide)⟩

/-- C8: code bug in `parseKey`.  On the claim's own example input `a:b{c}` —
where the separator occurs before the open-marker — the code slices
`key[endOfKind+1 : endOfKey]` = `key[4:1]` and panics (slice bounds out of
range), modelled as `none`; the claim demands `ok = false` instead of a
panic. -/
theorem claim8_parse_panics_code_bug :
    parseKey ['a', colon, 'b', curlyStart, 'c', curlyEnd] = none := by decide

/-! ### Key-codec round trip -/

theorem parseKey_mkKey {kind k v : List Char}
    (h1 : curlyStart ∉ kind) (h2 : colon ∉ kind) (h3 : curlyEnd ∉ kind)
    (h5 : colon ∉ k) (h6 : curlyEnd ∉ k)
    (h9 : curlyEnd ∉ v) :
    parseKey (mkKey kind k v) = some (kind, k, v, true) := by
  have e1 : idxOf? curlyStart (mkKey kind k v) = some kind.length := by
    unfold mkKey
    rw [idxOf?_append_of_not_mem h1, idxOf?_cons_self]
    simp
  have e2 : idxOf? colon (mkKey kind k v) = some (kind.length + 1 + k.length) := by
    unfold mkKey
    rw [idxOf?_append_of_not_mem h2,
      idxOf?_cons_of_ne (show curlyStart ≠ colon by decide),
      idxOf?_append_of_not_mem h5, idxOf?_cons_self]
    simp
    omega
  have e3 : idxOf? curlyEnd (mkKey kind k v) =
      some (kind.length + 1 + k.length + 1 + v.length) := by
    unfold mkKey
    rw [idxOf?_append_of_not_mem h3,
      idxOf?_cons_of_ne (show curlyStart ≠ curlyEnd by decide),
      idxOf?_append_of_not_mem h6,
      idxOf?_cons_of_ne (show colon ≠ curlyEnd by decide),
      idxOf?_append_of_not_mem h9, idxOf?_cons_self]
    simp
    omega
  have etake : (mkKey kind k v).take kind.length = kind := by
    unfold mkKey
    rw [show kind.length = kind.length + 0 by omega]
    rw [List.take_append]
    simp
  have edrop1 : (mkKey kind k v).drop (kind.length + 1) = k ++ colon :: (v ++ [curlyEnd]) := by
    have hassoc : mkKey kind k v =
        (kind ++ [curlyStart]) ++ (k ++ colon :: (v ++ [curlyEnd])) := by
      simp [mkKey]
    rw [hassoc, show kind.length + 1 = (kind ++ [curlyStart]).length by simp, List.drop_left]
  have edrop2 : (mkKey kind k v).drop (kind.length + 1 + k.length + 1) = v ++ [curlyEnd] := by
    have hassoc : mkKey kind k v =
        ((kind ++ [curlyStart]) ++ (k ++ [colon])) ++ (v ++ [curlyEnd]) := by
      simp [mkKey]
    rw [hassoc,
      show kind.length + 1 + k.length + 1 = ((kind ++ [curlyStart]) ++ (k ++ [colon])).length
        by simp; omega,
      List.drop_left]
  simp only [parseKey, e1, e2, e3]
  rw [if_neg (by omega), if_neg (by omega)]
  rw [edrop1, edrop2]
  rw [show kind.length + 1 + k.length - (kind.length + 1) = k.length by omega]
  rw [show kind.length + 1 + k.length + 1 + v.length - (kind.length + 1 + k.length + 1) =
    v.length by omega]
  rw [etake]
  rw [show (k ++ colon :: (v ++ [curlyEnd])).take k.length = k by
    rw [show k.length = k.length + 0 by omega, List.take_append]; simp]
  rw [show (v ++ [curlyEnd]).take v.length = v by
    rw [show v.length = v.length + 0 by omega, List.take_append]; simp]

/-- C7: key-codec round trip.  For every `(kind, attr, val)` containing none
of the delimiter characters, decoding the encoding returns exactly
`(kind, attr, val, ok = true)`; consequently the encoding is injective over
that character set. -/
theorem claim7_codec_roundtrip (kind k v : List Char)
    (h1 : curlyStart ∉ kind) (h2 : colon ∉ kind) (h3 : curlyEnd ∉ kind)
    (h4 : curlyStart ∉ k) (h5 : colon ∉ k) (h6 : curlyEnd ∉ k)
    (h7 : curlyStart ∉ v) (h8 : colon ∉ v) (h9 : curlyEnd ∉ v) :
    parseKey (mkKey kind k v) = some (kind, k, v, true) ∧
    (∀ kind' k' v' : List Char,
      curlyStart ∉ kind' → colon ∉ kind' → curlyEnd ∉ kind' →
      curlyStart ∉ k' → colon ∉ k' → curlyEnd ∉ k' →
      curlyStart ∉ v' → colon ∉ v' → curlyEnd ∉ v' →
      mkKey kind k v = mkKey kind' k' v' →
      kind = kind' ∧ k = k' ∧ v = v') := by
  refine ⟨parseKey_mkKey h1 h2 h3 h5 h6 h9, ?_⟩
  intro kind' k' v' g1 g2 g3 g4 g5 g6 g7 g8 g9 heq
  have ra := parseKey_mkKey h1 h2 h3 h5 h6 h9
  have rb := parseKey_mkKey g1 g2 g3 g5 g6 g9
  rw [heq, rb] at ra
  simp only [Option.some.injEq, Prod.mk.injEq] at ra
  exact ⟨ra.1.symm, ra.2.1.symm, ra.2.2.1.symm⟩

theorem claim7_codec_roundtrip_witness :
    curlyStart ∉ ['a'] ∧ colon ∉ ['a'] ∧ curlyEnd ∉ ['a'] ∧
    parseKey (mkKey ['a'] ['b'] ['c']) = some (['a'], ['b'], ['c'], true) :=
  ⟨by decide, by decide, by decide,
    (claim7_codec_roundtrip ['a'] ['b'] ['c'] (by decide) (by decide) (by decide) (by decide)
      (by decide) (by decide) (by decide) (by decide) (by decide)).1⟩

/-- C9: derivative memoization.  With a primary key configured, a first
`Derive` call on an item whose synthetic key is absent runs `computeFn`,
stores the result under the synthetic key `(kind+"/"+name, pkAttr, pkValue)`
and tags it with the base kind; a second call on any item with the same
primary-key value — its other fields may differ — returns the cached value
without invoking its compute function and without writing; invalidating the
base kind deletes the memoized value, so the next call invokes the compute
function again. -/
theorem claim9_derivative_memoization {α β : Type} (c : Collection α β)
    (name pkAttr : String) (pkOf : β → String) (hpk : c.pk = some (pkAttr, pkOf))
    (computeFn g g2 : β → Except String α) (s : Storage α) (it it2 : β) (v : α)
    (h0 : s.items (mkKeyS (c.kind ++ "/" ++ name) pkAttr (pkOf it)) = none)
    (hok : computeFn it = Except.ok v)
    (hsame : pkOf it2 = pkOf it) :
    (deriveFn c name computeFn s it).1 = some v ∧
    (deriveFn c name computeFn s it).2.2.2 = true ∧
    ((deriveFn c name computeFn s it).2.2.1).items
      (mkKeyS (c.kind ++ "/" ++ name) pkAttr (pkOf it)) = some v ∧
    mkKeyS (c.kind ++ "/" ++ name) pkAttr (pkOf it) ∈
      ((((deriveFn c name computeFn s it).2.2.1).tagToKeys c.kind).getD []) ∧
    deriveFn c name g ((deriveFn c name computeFn s it).2.2.1) it2 =
      (some v, none, (deriveFn c name computeFn s it).2.2.1, false) ∧
    (dbUpdate ((deriveFn c name computeFn s it).2.2.1) [Op.invalidate [c.kind]] false).items
      (mkKeyS (c.kind ++ "/" ++ name) pkAttr (pkOf it)) = none ∧
    (deriveFn c name g2
      (dbUpdate ((deriveFn c name computeFn s it).2.2.1) [Op.invalidate [c.kind]] false)
      it).2.2.2 = true := by
  have hder : ∀ (f : β → Except String α) (s' : Storage α) (i : β),
      deriveFn c name f s' i =
        dbGetOrFill s' (mkKeyS (c.kind ++ "/" ++ name) pkAttr (pkOf i)) (f i) [c.kind] := by
    intro f s' i
    simp [deriveFn, hpk]
  rw [hder computeFn s it, hok,
    dbGetOrFill_miss_ok v [c.kind] h0]
  have hst :
      (commit s (transTag s
          (transPut emptyTrans (mkKeyS (c.kind ++ "/" ++ name) pkAttr (pkOf it)) v)
          (mkKeyS (c.kind ++ "/" ++ name) pkAttr (pkOf it)) [c.kind])).items
        (mkKeyS (c.kind ++ "/" ++ name) pkAttr (pkOf it)) = some v :=
    dbGetOrFill_stores s _ v [c.kind]
  have htag : mkKeyS (c.kind ++ "/" ++ name) pkAttr (pkOf it) ∈
      (((commit s (transTag s
          (transPut emptyTrans (mkKeyS (c.kind ++ "/" ++ name) pkAttr (pkOf it)) v)
          (mkKeyS (c.kind ++ "/" ++ name) pkAttr (pkOf it)) [c.kind])).tagToKeys
        c.kind).getD []) :=
    dbGetOrFill_tags s _ v (by simp)
  have hdel := dbInvalidate_items_of_mem htag
  refine ⟨rfl, rfl, hst, htag, ?_, hdel, ?_⟩
  · rw [hder g _ it2, hsame]
    exact dbGetOrFill_hit _ _ hst
  · rw [hder g2 _ it]
    exact dbGetOrFill_filled _ _ hdel

/-- Witness collection for the C9 theorem: primary key "id" extracting the
first component, no extractor, values are the second component. -/
def wCol : Collection String (String × String) :=
  { kind := "bar", pk := some ("id", Prod.fst), keys := [], extract := none,
    embed := Prod.snd }

def wFill : (String × String) → Except String String := fun p => Except.ok p.2

def wS1 : Storage String := (deriveFn wCol "pat" wFill emptyStorage ("1", "old")).2.2.1

theorem claim9_derivative_memoization_witness :
    wCol.pk = some ("id", Prod.fst) ∧
    (emptyStorage : Storage String).items
      (mkKeyS ("bar" ++ "/" ++ "pat") "id" (Prod.fst (("1", "old") : String × String))) =
      none ∧
    Prod.fst (("1", "new") : String × String) = Prod.fst (("1", "old") : String × String) ∧
    (deriveFn wCol "pat" wFill emptyStorage ("1", "old")).1 = some "old" ∧
    deriveFn wCol "pat" wFill wS1 ("1", "new") = (some "old", none, wS1, false) := by
  have main := claim9_derivative_memoization wCol "pat" "id" Prod.fst rfl wFill wFill wFill
    emptyStorage ("1", "old") ("1", "new") "old" rfl rfl rfl
  exact ⟨rfl, rfl, rfl, main.1, main.2.2.2.2.1⟩

/-- C10: a `Collection` whose extract function was never configured — in
particular every derived collection produced by `Infer`, which is created
with no `Extractor` option — panics on `Load` (a nil Go function value is
called) and hence on `Invalidate`, which calls `Load`; `Load` completes
exactly when an `Extractor` was set. -/
theorem claim10_nil_extractor {α β γ : Type} (base : Collection α β) (mapBy : String)
    (embed : γ → α) :
    (infer base mapBy embed).extract = none ∧
    (infer base mapBy embed).load = none ∧
    (infer base mapBy embed).invalidateOps = none ∧
    (∀ c : Collection α β, c.load = none ↔ c.extract = none) := by
  refine ⟨rfl, rfl, rfl, fun c => ?_⟩
  unfold Collection.load
  cases hext : c.extract with
  | none => simp
  | some items =>
    cases hpk : c.pk with
    | none => simp
    | some p =>
      obtain ⟨pkAttr, pkOf⟩ := p
      simp

end Inventory
